import Mathlib

/-!
Verification of the oraclash shared-memory sorted set, keyed map layer and
price-oracle cache.

The memory region is modelled as a `List Nat` of bytes.  Rust slice
indexing is bounds-checked and panics on out-of-range access; every
operation that slices the region is therefore modelled as an
`Option`-valued function, `none` standing for a panic.  Little-endian
integer encoding is modelled by `readLE` / `writeLE`.

Record types (the `Binary` + `BinaryCmp` traits) are modelled by a `Bin`
structure carrying the constant size, the encoder and the decoder, with
the byte comparator passed separately (mirroring the two separate traits:
map values implement only `Binary`).
-/

namespace Oraclash

/-- Read a little-endian natural number from a byte list (least significant
byte first), as LittleEndian::read_u32 / read_u64 do over an exact slice. -/
def readLE : List Nat → Nat
  | [] => 0
  | b :: bs => b + 256 * readLE bs

/-- Write the `w` least-significant little-endian bytes of `n`, as
LittleEndian::write_u32 / write_u64 do (higher bits are truncated, matching
the `as u32` cast on the count). -/
def writeLE : Nat → Nat → List Nat
  | 0, _ => []
  | w + 1, n => n % 256 :: writeLE w (n / 256)

theorem length_writeLE (w n : Nat) : (writeLE w n).length = w := by
  induction w generalizing n with
  | zero => rfl
  | succ w ih => simp [writeLE, ih]

theorem readLE_writeLE (w n : Nat) : readLE (writeLE w n) = n % 256 ^ w := by
  induction w generalizing n with
  | zero => simp [writeLE, readLE, Nat.mod_one]
  | succ w ih =>
    rw [writeLE, readLE, ih, pow_succ]
    rw [mul_comm (256 ^ w) 256, Nat.mod_mul]

/-- Read `len` bytes of the region starting at `off`; models the Rust slice
expression mem[off..off+len], which panics (here: `none`) when the range
exceeds the region. -/
def sliceRead (m : List Nat) (off len : Nat) : Option (List Nat) :=
  if off + len ≤ m.length then some ((m.drop off).take len) else none

/-- Overwrite the bytes of the region at `off` with `buf`; models
mem[off..off+buf.len()].copy_from_slice(buf), which panics (here: `none`)
when the range exceeds the region. -/
def sliceWrite (m : List Nat) (off : Nat) (buf : List Nat) : Option (List Nat) :=
  if off + buf.length ≤ m.length then
    some (m.take off ++ buf ++ m.drop (off + buf.length))
  else none

/-- Set length size (the 4-byte count header). -/
def LEN_SIZE : Nat := 4

/-- The Binary trait: constant encoded size, encode, decode.  `to_bytes`
models filling a zeroed buffer of length `const_size` (the encoders of all
record types in the repository fill the whole buffer). -/
structure Bin (α : Type) where
  const_size : Nat
  to_bytes : α → List Nat
  from_bytes : List Nat → α

/-- A byte comparator, as the BinaryCmp trait: a pure function on two
encoded byte slices. -/
abbrev BinCmp := List Nat → List Nat → Ordering

namespace SortedSet

variable {α : Type}

/-- Create element offset by its index: T::const_size() * index + LEN_SIZE. -/
def offset (B : Bin α) (index : Nat) : Nat :=
  B.const_size * index + LEN_SIZE

/-- Returns set length: read_u32 of the bytes in SIZE_RANGE (0..4). -/
def len (m : List Nat) : Option Nat :=
  (sliceRead m 0 LEN_SIZE).map readLE

/-- Set list length: write_u32 of `n as u32` into SIZE_RANGE. -/
def set_len (m : List Nat) (n : Nat) : Option (List Nat) :=
  sliceWrite m 0 (writeLE LEN_SIZE n)

/-- Removes all elements from the set. -/
def clear (m : List Nat) : Option (List Nat) :=
  set_len m 0

/-- Get bytes by index: the slice mem[offset..offset + const_size]. -/
def get_by_index (B : Bin α) (m : List Nat) (index : Nat) : Option (List Nat) :=
  sliceRead m (offset B index) B.const_size

/-- Result of find_index: an exact match index, or the final (lo, hi)
range at loop exit. -/
inductive Find where
  | Index : Nat → Find
  | LastRange : Nat × Nat → Find
deriving DecidableEq

/-- The binary-search loop of find_index.  The Rust loop body always runs
at least once (the caller enters it only with a nonempty range), probes
middle = (lo + hi) / 2, returns on Equal, otherwise narrows to (lo, middle)
or (middle + 1, hi) and exits with that range once lo >= hi. -/
def find_loop (c : List Nat → Ordering) (B : Bin α) (m : List Nat)
    (lo hi : Nat) : Option Find :=
  match get_by_index B m ((lo + hi) / 2) with
  | none => none
  | some bytes =>
    match c bytes with
    | Ordering.eq => some (Find.Index ((lo + hi) / 2))
    | Ordering.lt =>
        if h : lo < (lo + hi) / 2 then find_loop c B m lo ((lo + hi) / 2)
        else some (Find.LastRange (lo, (lo + hi) / 2))
    | Ordering.gt =>
        if h : (lo + hi) / 2 + 1 < hi then find_loop c B m ((lo + hi) / 2 + 1) hi
        else some (Find.LastRange ((lo + hi) / 2 + 1, hi))
termination_by hi - lo
decreasing_by
  · omega
  · omega

/-- Find the element index or the closest interval. -/
def find_index (c : List Nat → Ordering) (B : Bin α) (m : List Nat) :
    Option Find := do
  let n ← len m
  if n = 0 then pure (Find.LastRange (0, 0))
  else find_loop c B m 0 n

/-- Get the element by the given index. -/
def get (B : Bin α) (m : List Nat) (index : Nat) : Option (Option α) := do
  let n ← len m
  if index ≥ n then pure none
  else do
    let bs ← get_by_index B m index
    pure (some (B.from_bytes bs))

/-- Finds the element by given comparator. -/
def find (c : List Nat → Ordering) (B : Bin α) (m : List Nat) :
    Option (Option α) := do
  match ← find_index c B m with
  | Find.Index i => do
      let bs ← get_by_index B m i
      pure (some (B.from_bytes bs))
  | Find.LastRange _ => pure none

/-- Stores bytes by index; copy_from_slice additionally panics when the
buffer length differs from the slice length. -/
def store_at_index (B : Bin α) (m : List Nat) (index : Nat)
    (buffer : List Nat) : Option (List Nat) :=
  if buffer.length = B.const_size then sliceWrite m (offset B index) buffer
  else none

/-- One iteration of shift_right: copy the record at slot `i` into slot
`i + 1` (split_at_mut(next_offset) then right[0..size].copy_from_slice). -/
def shift_step (B : Bin α) (m : List Nat) (i : Nat) : Option (List Nat) := do
  let src ← sliceRead m (offset B i) B.const_size
  sliceWrite m (offset B i + B.const_size) src

/-- The (index..len).rev() loop of shift_right: `k` indices remain,
covering slots start + k - 1 down to start. -/
def shift_loop (B : Bin α) (start : Nat) : List Nat → Nat → Option (List Nat)
  | m, 0 => some m
  | m, k + 1 => do
      let m1 ← shift_step B m (start + k)
      shift_loop B start m1 k

/-- Shifts all elements starting from the index to the right. -/
def shift_right (B : Bin α) (m : List Nat) (index : Nat) :
    Option (List Nat) := do
  let n ← len m
  shift_loop B index m (n - index)

/-- Add new elements to the set: encode, search, overwrite on an exact
match, otherwise shift right from the insertion boundary, store there and
increment the count (the count is re-read after the writes, which never
touch the header). -/
def add (B : Bin α) (cmp : BinCmp) (m : List Nat) (item : α) :
    Option (List Nat) := do
  let buffer := B.to_bytes item
  match ← find_index (fun order => cmp buffer order) B m with
  | Find.Index index => store_at_index B m index buffer
  | Find.LastRange (start, _) => do
      let m1 ← shift_right B m start
      let m2 ← store_at_index B m1 start buffer
      let n ← len m2
      set_len m2 (n + 1)

/-- Create vector with set elements: collect get(0), get(1), ... until the
first absent index; under a well-formed count this is the decode of every
slot below the count. -/
def to_vec (B : Bin α) (m : List Nat) : Option (List α) := do
  let n ← len m
  (List.range n).mapM (fun i => (get_by_index B m i).map B.from_bytes)

/-- Fold a sequence of add calls (a client-side helper used to state the
sortedness invariant over arbitrary call sequences). -/
def add_all (B : Bin α) (cmp : BinCmp) : List Nat → List α → Option (List Nat)
  | m, [] => some m
  | m, x :: xs => do
      let m1 ← add B cmp m x
      add_all B cmp m1 xs

end SortedSet

/-- Bytes of slot `i` of the region (the denotation of get_by_index when
the read is in bounds). -/
def slot (s : Nat) (m : List Nat) (i : Nat) : List Nat :=
  (m.drop (s * i + LEN_SIZE)).take s

/-- The region is sorted strictly ascending under the comparator, over the
first `n` slots. -/
def Sorted (cmp : BinCmp) (s n : Nat) (m : List Nat) : Prop :=
  ∀ i j, i < j → j < n → cmp (slot s m i) (slot s m j) = Ordering.lt

/-- Capacity in records implied by the region size. -/
def capacity (s : Nat) (m : List Nat) : Nat :=
  (m.length - LEN_SIZE) / s

/-- The laws making a byte comparator a total order on encodings (the
contract the BinaryCmp implementation must satisfy). -/
structure LawfulCmp (cmp : BinCmp) : Prop where
  swap_eq : ∀ a b, cmp b a = (cmp a b).swap
  lt_trans : ∀ a b c, cmp a b = Ordering.lt → cmp b c = Ordering.lt →
    cmp a c = Ordering.lt
  congr_of_eq : ∀ a b, cmp a b = Ordering.eq → ∀ x, cmp x a = cmp x b

/-- A one-sided probe comparator consistent with a byte order (the find
contract: the probe orders consistently with the stored order). -/
structure ProbeConsistent (c : List Nat → Ordering) (cmp : BinCmp) : Prop where
  lt_spread : ∀ x y, c x = Ordering.lt → cmp x y = Ordering.lt →
    c y = Ordering.lt
  gt_spread : ∀ x y, c x = Ordering.gt → cmp y x = Ordering.lt →
    c y = Ordering.gt

/- ------------------------------------------------------------------ -/
/- The keyed map layer (map.rs).                                       -/
/- ------------------------------------------------------------------ -/

/-- Binary instance of Entry<K, V>: key bytes then value bytes; decode
splits the buffer at K::const_size(). -/
def entry_bin {κ ν : Type} (BK : Bin κ) (BV : Bin ν) : Bin (κ × ν) where
  const_size := BK.const_size + BV.const_size
  to_bytes := fun e => BK.to_bytes e.1 ++ BV.to_bytes e.2
  from_bytes := fun bs =>
    (BK.from_bytes (bs.take BK.const_size),
     BV.from_bytes ((bs.drop BK.const_size).take BV.const_size))

/-- BinaryCmp instance of Entry<K, V>: K::cmp on the two K-sized byte
ranges only; the value bytes are never consulted. -/
def entry_cmp {κ : Type} (BK : Bin κ) (kcmp : BinCmp) : BinCmp :=
  fun l r => kcmp (l.take BK.const_size) (r.take BK.const_size)

/-- KeyCmp: a probe comparing an encoded key against the key-sized lead
bytes of a stored entry. -/
def key_cmp {κ : Type} (BK : Bin κ) (kcmp : BinCmp) (key : κ) :
    List Nat → Ordering :=
  fun order => kcmp (BK.to_bytes key) (order.take BK.const_size)

namespace ShmMap

/-- Put a value to the map: add the composite entry. -/
def put {κ ν : Type} (BK : Bin κ) (BV : Bin ν) (kcmp : BinCmp)
    (m : List Nat) (key : κ) (value : ν) : Option (List Nat) :=
  SortedSet.add (entry_bin BK BV) (entry_cmp BK kcmp) m (key, value)

/-- Retrieve the value associated with the key: find by KeyCmp, keep the
value component. -/
def get {κ ν : Type} (BK : Bin κ) (BV : Bin ν) (kcmp : BinCmp)
    (m : List Nat) (key : κ) : Option (Option ν) :=
  (SortedSet.find (key_cmp BK kcmp key) (entry_bin BK BV) m).map
    (fun o => o.map Prod.snd)

/-- Removes all keys. -/
def clear (m : List Nat) : Option (List Nat) :=
  SortedSet.clear m

end ShmMap

/- ------------------------------------------------------------------ -/
/- The oracle record types (oracle.rs) and the Pair test type.         -/
/- ------------------------------------------------------------------ -/

/-- Binary instance of Ticker: a u64 hash, 8 little-endian bytes.  The
u64 payload is modelled as a Nat below 2^64. -/
def ticker_bin : Bin Nat where
  const_size := 8
  to_bytes := fun t => writeLE 8 t
  from_bytes := fun bs => readLE (bs.take 8)

/-- BinaryCmp instance of Ticker: decode both sides and compare the u64s. -/
def ticker_cmp : BinCmp :=
  fun l r => compare (readLE (l.take 8)) (readLE (r.take 8))

/-- Binary instance of Price: a u64 value, 8 little-endian bytes. -/
def price_bin : Bin Nat where
  const_size := 8
  to_bytes := fun p => writeLE 8 p
  from_bytes := fun bs => readLE (bs.take 8)

/-- Binary instance of the Pair test record: key u64 at bytes 0..8, value
u64 at bytes 8..16. -/
def pair_bin : Bin (Nat × Nat) where
  const_size := 16
  to_bytes := fun p => writeLE 8 p.1 ++ writeLE 8 p.2
  from_bytes := fun bs => (readLE (bs.take 8), readLE ((bs.drop 8).take 8))

/-- BinaryCmp instance of Pair: compare the key u64s read from the first
8 bytes of each side. -/
def pair_cmp : BinCmp :=
  fun l r => compare (readLE (l.take 8)) (readLE (r.take 8))

/-- Number of comparator probes performed by the find_index loop: the same
recursion structure as find_loop, counting one probe per iteration (a
failed read also counts its iteration). -/
def find_steps {α : Type} (c : List Nat → Ordering) (B : Bin α)
    (m : List Nat) (lo hi : Nat) : Nat :=
  match SortedSet.get_by_index B m ((lo + hi) / 2) with
  | none => 1
  | some bytes =>
    match c bytes with
    | Ordering.eq => 1
    | Ordering.lt =>
        if h : lo < (lo + hi) / 2 then 1 + find_steps c B m lo ((lo + hi) / 2)
        else 1
    | Ordering.gt =>
        if h : (lo + hi) / 2 + 1 < hi then
          1 + find_steps c B m ((lo + hi) / 2 + 1) hi
        else 1
termination_by hi - lo
decreasing_by
  · omega
  · omega

/-- Structurally recursive twin of find_loop, indexed by a fuel bound on
the recursion depth, used to evaluate concrete instances in the kernel
(the well-founded find_loop does not reduce there).  Fuel exhaustion
returns none, and find_loop_fuel_eq shows it never occurs when
hi ≤ lo + fuel + 1, so the two functions agree at every call site. -/
def find_loop_fuel {α : Type} (c : List Nat → Ordering) (B : Bin α)
    (m : List Nat) : Nat → Nat → Nat → Option SortedSet.Find
  | 0, lo, hi =>
    match SortedSet.get_by_index B m ((lo + hi) / 2) with
    | none => none
    | some bytes =>
      match c bytes with
      | Ordering.eq => some (SortedSet.Find.Index ((lo + hi) / 2))
      | Ordering.lt =>
          if lo < (lo + hi) / 2 then none
          else some (SortedSet.Find.LastRange (lo, (lo + hi) / 2))
      | Ordering.gt =>
          if (lo + hi) / 2 + 1 < hi then none
          else some (SortedSet.Find.LastRange ((lo + hi) / 2 + 1, hi))
  | d + 1, lo, hi =>
    match SortedSet.get_by_index B m ((lo + hi) / 2) with
    | none => none
    | some bytes =>
      match c bytes with
      | Ordering.eq => some (SortedSet.Find.Index ((lo + hi) / 2))
      | Ordering.lt =>
          if lo < (lo + hi) / 2 then find_loop_fuel c B m d lo ((lo + hi) / 2)
          else some (SortedSet.Find.LastRange (lo, (lo + hi) / 2))
      | Ordering.gt =>
          if (lo + hi) / 2 + 1 < hi then
            find_loop_fuel c B m d ((lo + hi) / 2 + 1) hi
          else some (SortedSet.Find.LastRange ((lo + hi) / 2 + 1, hi))

/-- Computable twin of find_index (see find_loop_fuel). -/
def find_index_fuel {α : Type} (c : List Nat → Ordering) (B : Bin α)
    (m : List Nat) : Option SortedSet.Find := do
  let n ← SortedSet.len m
  if n = 0 then pure (SortedSet.Find.LastRange (0, 0))
  else find_loop_fuel c B m n 0 n

/-- Computable twin of find (see find_loop_fuel). -/
def find_fuel {α : Type} (c : List Nat → Ordering) (B : Bin α)
    (m : List Nat) : Option (Option α) := do
  match ← find_index_fuel c B m with
  | SortedSet.Find.Index i => do
      let bs ← SortedSet.get_by_index B m i
      pure (some (B.from_bytes bs))
  | SortedSet.Find.LastRange _ => pure none

/-- Computable twin of add (see find_loop_fuel). -/
def add_fuel {α : Type} (B : Bin α) (cmp : BinCmp) (m : List Nat)
    (item : α) : Option (List Nat) := do
  let buffer := B.to_bytes item
  match ← find_index_fuel (fun order => cmp buffer order) B m with
  | SortedSet.Find.Index index => SortedSet.store_at_index B m index buffer
  | SortedSet.Find.LastRange (start, _) => do
      let m1 ← SortedSet.shift_right B m start
      let m2 ← SortedSet.store_at_index B m1 start buffer
      let n ← SortedSet.len m2
      SortedSet.set_len m2 (n + 1)

/-- Computable twin of add_all (see find_loop_fuel). -/
def add_all_fuel {α : Type} (B : Bin α) (cmp : BinCmp) :
    List Nat → List α → Option (List Nat)
  | m, [] => some m
  | m, x :: xs => do
      let m1 ← add_fuel B cmp m x
      add_all_fuel B cmp m1 xs

/-- The index at which a probed value belongs in the sorted region: all
earlier slots compare below the probe and all later live slots above it. -/
def InsertionPoint (c : List Nat → Ordering) (s n l : Nat)
    (m : List Nat) : Prop :=
  l ≤ n ∧ (∀ j, j < l → c (slot s m j) = Ordering.gt) ∧
    (∀ j, l ≤ j → j < n → c (slot s m j) = Ordering.lt)

/- ------------------------------------------------------------------ -/
/- Frame lemmas for the byte-level primitives.                         -/
/- ------------------------------------------------------------------ -/

theorem sliceRead_some {m : List Nat} {off len : Nat}
    (h : off + len ≤ m.length) :
    sliceRead m off len = some ((m.drop off).take len) := by
  simp [sliceRead, h]

theorem sliceWrite_some {m buf : List Nat} {off : Nat}
    (h : off + buf.length ≤ m.length) :
    sliceWrite m off buf =
      some (m.take off ++ buf ++ m.drop (off + buf.length)) := by
  simp [sliceWrite, h]

theorem write_length {m buf : List Nat} {off : Nat}
    (h : off + buf.length ≤ m.length) :
    (m.take off ++ buf ++ m.drop (off + buf.length)).length = m.length := by
  simp [List.length_take, List.length_drop]
  omega

theorem write_getElem {m buf : List Nat} {off : Nat}
    (h : off + buf.length ≤ m.length) (i : Nat) :
    (m.take off ++ buf ++ m.drop (off + buf.length))[i]? =
      if i < off then m[i]?
      else if i < off + buf.length then buf[i - off]?
      else m[i]? := by
  have h1 : (m.take off).length = off := by
    simp [List.length_take]; omega
  rw [List.append_assoc, List.getElem?_append, h1]
  by_cases hc1 : i < off
  · rw [if_pos hc1, if_pos hc1, List.getElem?_take, if_pos hc1]
  · rw [if_neg hc1, if_neg hc1, List.getElem?_append]
    by_cases hc2 : i < off + buf.length
    · rw [if_pos (by omega), if_pos hc2]
    · rw [if_neg (by omega), if_neg hc2, List.getElem?_drop]
      congr 1
      omega

theorem seg_getElem (m : List Nat) (a b k : Nat) :
    ((m.drop a).take b)[k]? = if k < b then m[a + k]? else none := by
  rw [List.getElem?_take]
  by_cases hk : k < b
  · simp [hk, List.getElem?_drop]
  · simp [hk]

theorem slot_getElem (s : Nat) (m : List Nat) (i k : Nat) :
    (slot s m i)[k]? = if k < s then m[s * i + LEN_SIZE + k]? else none := by
  rw [slot, seg_getElem]

theorem slot_write_disjoint {m buf : List Nat} {off s j : Nat}
    (h : off + buf.length ≤ m.length)
    (hd : s * j + LEN_SIZE + s ≤ off ∨ off + buf.length ≤ s * j + LEN_SIZE) :
    slot s (m.take off ++ buf ++ m.drop (off + buf.length)) j = slot s m j := by
  apply List.ext_getElem?
  intro k
  rw [slot_getElem, slot_getElem]
  by_cases hk : k < s
  · rw [if_pos hk, if_pos hk, write_getElem h]
    rcases hd with hd | hd
    · rw [if_pos (by omega)]
    · rw [if_neg (by omega), if_neg (by omega)]
  · rw [if_neg hk, if_neg hk]

theorem slot_write_exact {m buf : List Nat} {s j : Nat}
    (h : s * j + LEN_SIZE + buf.length ≤ m.length)
    (hlen : buf.length = s) :
    slot s (m.take (s * j + LEN_SIZE) ++ buf ++
      m.drop (s * j + LEN_SIZE + buf.length)) j = buf := by
  apply List.ext_getElem?
  intro k
  rw [slot_getElem]
  by_cases hk : k < s
  · rw [if_pos hk, write_getElem h, if_neg (by omega), if_pos (by omega)]
    congr 1
    omega
  · rw [if_neg hk, List.getElem?_eq_none]
    omega

theorem head_write_eq {m buf : List Nat} {off : Nat}
    (h : off + buf.length ≤ m.length) (hoff : LEN_SIZE ≤ off) :
    (m.take off ++ buf ++ m.drop (off + buf.length)).take LEN_SIZE =
      m.take LEN_SIZE := by
  apply List.ext_getElem?
  intro k
  rw [List.getElem?_take, List.getElem?_take]
  by_cases hk : k < LEN_SIZE
  · simp only [hk, if_pos]
    rw [write_getElem h, if_pos (by omega)]
  · simp [hk]

theorem len_eq {m : List Nat} (h : LEN_SIZE ≤ m.length) :
    SortedSet.len m = some (readLE (m.take LEN_SIZE)) := by
  simp [SortedSet.len, sliceRead, LEN_SIZE] at *
  omega

/- ------------------------------------------------------------------ -/
/- Operation-level specifications.                                     -/
/- ------------------------------------------------------------------ -/

theorem get_by_index_eq {α : Type} (B : Bin α) {m : List Nat} {i : Nat}
    (h : B.const_size * i + LEN_SIZE + B.const_size ≤ m.length) :
    SortedSet.get_by_index B m i = some (slot B.const_size m i) := by
  rw [SortedSet.get_by_index, SortedSet.offset, sliceRead_some (by omega), slot]

theorem set_len_spec {m : List Nat} (v : Nat) (h : LEN_SIZE ≤ m.length) :
    ∃ w, SortedSet.set_len m v = some w ∧ w.length = m.length ∧
      SortedSet.len w = some (v % 2 ^ 32) ∧
      w.drop LEN_SIZE = m.drop LEN_SIZE ∧
      (∀ s j, slot s w j = slot s m j) := by
  have hl : (writeLE LEN_SIZE v).length = LEN_SIZE := length_writeLE _ _
  have hb : (0 : Nat) + (writeLE LEN_SIZE v).length ≤ m.length := by
    rw [hl]; omega
  refine ⟨_, by rw [SortedSet.set_len, sliceWrite_some hb], write_length hb, ?_, ?_, ?_⟩
  · have hwlen : (m.take 0 ++ writeLE LEN_SIZE v ++
        m.drop (0 + (writeLE LEN_SIZE v).length)).length = m.length :=
      write_length hb
    rw [len_eq (by omega)]
    congr 1
    have htake : (m.take 0 ++ writeLE LEN_SIZE v ++
        m.drop (0 + (writeLE LEN_SIZE v).length)).take LEN_SIZE =
        writeLE LEN_SIZE v := by
      apply List.ext_getElem?
      intro k
      rw [List.getElem?_take]
      by_cases hk : k < LEN_SIZE
      · rw [if_pos hk, write_getElem hb, if_neg (by omega), if_pos (by omega)]
        congr 1
      · rw [if_neg hk, List.getElem?_eq_none (by omega)]
    rw [htake, readLE_writeLE]
    norm_num [LEN_SIZE]
  · apply List.ext_getElem?
    intro k
    rw [List.getElem?_drop, List.getElem?_drop, write_getElem hb,
      if_neg (by omega), if_neg (by rw [hl]; omega)]
  · intro s j
    apply slot_write_disjoint hb
    right
    rw [hl]
    simp [LEN_SIZE]

theorem store_at_index_spec {α : Type} (B : Bin α) {m buffer : List Nat}
    {i : Nat} (hlen : buffer.length = B.const_size)
    (hb : B.const_size * i + LEN_SIZE + B.const_size ≤ m.length) :
    ∃ w, SortedSet.store_at_index B m i buffer = some w ∧
      w.length = m.length ∧
      slot B.const_size w i = buffer ∧
      (∀ j, j ≠ i → slot B.const_size w j = slot B.const_size m j) ∧
      w.take LEN_SIZE = m.take LEN_SIZE := by
  have hwb : SortedSet.offset B i + buffer.length ≤ m.length := by
    rw [SortedSet.offset, hlen]; omega
  refine ⟨_, ?_, write_length hwb, ?_, ?_, ?_⟩
  · rw [SortedSet.store_at_index, if_pos hlen, sliceWrite_some hwb]
  · rw [SortedSet.offset]
    exact slot_write_exact (by rw [hlen]; omega) hlen
  · intro j hj
    apply slot_write_disjoint hwb
    rw [SortedSet.offset, hlen]
    rcases Nat.lt_or_ge j i with hji | hji
    · left
      have h1 : B.const_size * (j + 1) ≤ B.const_size * i :=
        Nat.mul_le_mul_left _ (by omega)
      have h2 : B.const_size * (j + 1) = B.const_size * j + B.const_size := by
        ring
      omega
    · right
      have h1 : B.const_size * (i + 1) ≤ B.const_size * j :=
        Nat.mul_le_mul_left _ (by omega)
      have h2 : B.const_size * (i + 1) = B.const_size * i + B.const_size := by
        ring
      omega
  · exact head_write_eq hwb (by rw [SortedSet.offset]; omega)

theorem shift_step_spec {α : Type} (B : Bin α) {m : List Nat} {i : Nat}
    (hb : B.const_size * (i + 1) + LEN_SIZE + B.const_size ≤ m.length) :
    ∃ w, SortedSet.shift_step B m i = some w ∧
      w.length = m.length ∧
      slot B.const_size w (i + 1) = slot B.const_size m i ∧
      (∀ j, j ≠ i + 1 → slot B.const_size w j = slot B.const_size m j) ∧
      w.take LEN_SIZE = m.take LEN_SIZE := by
  have hsm : B.const_size * (i + 1) = B.const_size * i + B.const_size := by
    ring
  have hrd : SortedSet.offset B i + B.const_size ≤ m.length := by
    rw [SortedSet.offset]; omega
  have hsrc_len : (slot B.const_size m i).length = B.const_size := by
    rw [slot]
    simp only [List.length_take, List.length_drop]
    omega
  obtain ⟨w, hw, hlen, hexact, hothers, hhead⟩ :=
    store_at_index_spec B (m := m) (i := i + 1) hsrc_len hb
  have heq : SortedSet.shift_step B m i =
      SortedSet.store_at_index B m (i + 1) (slot B.const_size m i) := by
    rw [SortedSet.shift_step, sliceRead_some hrd,
      SortedSet.store_at_index, if_pos hsrc_len]
    show ((some ((m.drop (SortedSet.offset B i)).take B.const_size)).bind
      fun src => sliceWrite m (SortedSet.offset B i + B.const_size) src) = _
    rw [Option.some_bind, SortedSet.offset, SortedSet.offset, slot]
    congr 1
    ring
  exact ⟨w, by rw [heq]; exact hw, hlen, hexact, hothers, hhead⟩

theorem shift_loop_spec {α : Type} (B : Bin α) (start : Nat) :
    ∀ (k : Nat) (m : List Nat),
      B.const_size * (start + k) + LEN_SIZE + B.const_size ≤ m.length →
      ∃ w, SortedSet.shift_loop B start m k = some w ∧
        w.length = m.length ∧
        w.take LEN_SIZE = m.take LEN_SIZE ∧
        (∀ j, j ≤ start → slot B.const_size w j = slot B.const_size m j) ∧
        (∀ j, start < j → j ≤ start + k →
          slot B.const_size w j = slot B.const_size m (j - 1)) ∧
        (∀ j, start + k < j → slot B.const_size w j = slot B.const_size m j) := by
  intro k
  induction k with
  | zero =>
    intro m _
    exact ⟨m, rfl, rfl, rfl, fun _ _ => rfl, fun j h1 h2 => by omega,
      fun _ _ => rfl⟩
  | succ k ih =>
    intro m hb
    have hb' : B.const_size * (start + (k + 1)) =
        B.const_size * (start + k + 1) := by ring
    have hstep : B.const_size * (start + k + 1) + LEN_SIZE + B.const_size ≤
        m.length := by omega
    obtain ⟨m1, hm1, hm1len, hm1exact, hm1others, hm1head⟩ :=
      shift_step_spec B (m := m) (i := start + k) hstep
    have hih : B.const_size * (start + k) + LEN_SIZE + B.const_size ≤
        m1.length := by
      have h1 : B.const_size * (start + k + 1) =
          B.const_size * (start + k) + B.const_size := by ring
      omega
    obtain ⟨w, hw, hwlen, hwhead, hwlow, hwmid, hwhigh⟩ := ih m1 hih
    refine ⟨w, ?_, by rw [hwlen, hm1len], by rw [hwhead, hm1head], ?_, ?_, ?_⟩
    · rw [SortedSet.shift_loop, hm1]
      exact hw
    · intro j hj
      rw [hwlow j hj, hm1others j (by omega)]
    · intro j hj1 hj2
      rcases Nat.lt_or_ge j (start + k + 1) with hj3 | hj3
      · rw [hwmid j hj1 (by omega), hm1others (j - 1) (by omega)]
      · have hj4 : j = start + k + 1 := by omega
        subst hj4
        rw [hwhigh _ (by omega), hm1exact]
        congr 1
    · intro j hj
      rw [hwhigh j (by omega), hm1others j (by omega)]

theorem shift_right_spec {α : Type} (B : Bin α) {m : List Nat} {n start : Nat}
    (hn : SortedSet.len m = some n) (hstart : start ≤ n)
    (hb : B.const_size * n + LEN_SIZE + B.const_size ≤ m.length) :
    ∃ w, SortedSet.shift_right B m start = some w ∧
      w.length = m.length ∧
      w.take LEN_SIZE = m.take LEN_SIZE ∧
      (∀ j, j ≤ start → slot B.const_size w j = slot B.const_size m j) ∧
      (∀ j, start < j → j ≤ n →
        slot B.const_size w j = slot B.const_size m (j - 1)) ∧
      (∀ j, n < j → slot B.const_size w j = slot B.const_size m j) := by
  have hsn : start + (n - start) = n := by omega
  obtain ⟨w, hw, h1, h2, h3, h4, h5⟩ :=
    shift_loop_spec B start (n - start) m (by rw [hsn]; exact hb)
  rw [hsn] at h4 h5
  exact ⟨w, by rw [SortedSet.shift_right, hn]; exact hw, h1, h2, h3, h4, h5⟩

/- ------------------------------------------------------------------ -/
/- Binary search correctness.                                          -/
/- ------------------------------------------------------------------ -/

theorem find_loop_spec {α : Type} (B : Bin α) (c : List Nat → Ordering)
    (cmp : BinCmp) {m : List Nat} {n : Nat}
    (hwf : B.const_size * n + LEN_SIZE ≤ m.length)
    (hsorted : Sorted cmp B.const_size n m)
    (hpc : ProbeConsistent c cmp) :
    ∀ lo hi, lo < hi → hi ≤ n →
    (∀ j, j < lo → c (slot B.const_size m j) = Ordering.gt) →
    (∀ j, hi ≤ j → j < n → c (slot B.const_size m j) = Ordering.lt) →
    (∃ i, SortedSet.find_loop c B m lo hi = some (SortedSet.Find.Index i) ∧
      i < n ∧ c (slot B.const_size m i) = Ordering.eq) ∨
    (∃ l, SortedSet.find_loop c B m lo hi =
        some (SortedSet.Find.LastRange (l, l)) ∧ l ≤ n ∧
      (∀ j, j < l → c (slot B.const_size m j) = Ordering.gt) ∧
      (∀ j, l ≤ j → j < n → c (slot B.const_size m j) = Ordering.lt)) := by
  suffices H : ∀ d lo hi, hi - lo ≤ d → lo < hi → hi ≤ n →
      (∀ j, j < lo → c (slot B.const_size m j) = Ordering.gt) →
      (∀ j, hi ≤ j → j < n → c (slot B.const_size m j) = Ordering.lt) →
      (∃ i, SortedSet.find_loop c B m lo hi = some (SortedSet.Find.Index i) ∧
        i < n ∧ c (slot B.const_size m i) = Ordering.eq) ∨
      (∃ l, SortedSet.find_loop c B m lo hi =
          some (SortedSet.Find.LastRange (l, l)) ∧ l ≤ n ∧
        (∀ j, j < l → c (slot B.const_size m j) = Ordering.gt) ∧
        (∀ j, l ≤ j → j < n → c (slot B.const_size m j) = Ordering.lt)) by
    exact fun lo hi => H (hi - lo) lo hi le_rfl
  intro d
  induction d with
  | zero =>
    intro lo hi hd hlt
    omega
  | succ d ih =>
    intro lo hi hd hlt hhi hlow hhigh
    have hmidlt : (lo + hi) / 2 < hi := by omega
    have hmidge : lo ≤ (lo + hi) / 2 := by omega
    have hmidn : (lo + hi) / 2 < n := lt_of_lt_of_le hmidlt hhi
    have hgetb : B.const_size * ((lo + hi) / 2) + LEN_SIZE + B.const_size ≤
        m.length := by
      have h1 : B.const_size * ((lo + hi) / 2 + 1) ≤ B.const_size * n :=
        Nat.mul_le_mul_left _ (by omega)
      have h2 : B.const_size * ((lo + hi) / 2 + 1) =
          B.const_size * ((lo + hi) / 2) + B.const_size := by ring
      omega
    have hget : SortedSet.get_by_index B m ((lo + hi) / 2) =
        some (slot B.const_size m ((lo + hi) / 2)) := get_by_index_eq B hgetb
    have hstep : SortedSet.find_loop c B m lo hi =
        match c (slot B.const_size m ((lo + hi) / 2)) with
        | Ordering.eq => some (SortedSet.Find.Index ((lo + hi) / 2))
        | Ordering.lt =>
            if h : lo < (lo + hi) / 2 then
              SortedSet.find_loop c B m lo ((lo + hi) / 2)
            else some (SortedSet.Find.LastRange (lo, (lo + hi) / 2))
        | Ordering.gt =>
            if h : (lo + hi) / 2 + 1 < hi then
              SortedSet.find_loop c B m ((lo + hi) / 2 + 1) hi
            else some (SortedSet.Find.LastRange ((lo + hi) / 2 + 1, hi)) := by
      rw [SortedSet.find_loop, hget]
    rw [hstep]
    cases hc : c (slot B.const_size m ((lo + hi) / 2)) with
    | eq =>
      exact Or.inl ⟨(lo + hi) / 2, rfl, hmidn, hc⟩
    | lt =>
      have hnewhigh : ∀ j, (lo + hi) / 2 ≤ j → j < n →
          c (slot B.const_size m j) = Ordering.lt := by
        intro j hj1 hj2
        rcases eq_or_lt_of_le hj1 with hj3 | hj3
        · rw [← hj3]; exact hc
        · exact hpc.lt_spread _ _ hc (hsorted _ _ hj3 hj2)
      by_cases hlm : lo < (lo + hi) / 2
      · rw [dif_pos hlm]
        exact ih lo ((lo + hi) / 2) (by omega) hlm (by omega) hlow hnewhigh
      · rw [dif_neg hlm]
        have hmeq : (lo + hi) / 2 = lo := by omega
        rw [hmeq]
        refine Or.inr ⟨lo, rfl, by omega, hlow, ?_⟩
        rw [hmeq] at hnewhigh
        exact hnewhigh
    | gt =>
      have hnewlow : ∀ j, j < (lo + hi) / 2 + 1 →
          c (slot B.const_size m j) = Ordering.gt := by
        intro j hj1
        rcases Nat.lt_or_ge j ((lo + hi) / 2) with hj3 | hj3
        · exact hpc.gt_spread _ _ hc (hsorted _ _ hj3 hmidn)
        · have : j = (lo + hi) / 2 := by omega
          rw [this]; exact hc
      by_cases hmh : (lo + hi) / 2 + 1 < hi
      · rw [dif_pos hmh]
        exact ih ((lo + hi) / 2 + 1) hi (by omega) hmh hhi hnewlow hhigh
      · rw [dif_neg hmh]
        have hmeq : (lo + hi) / 2 + 1 = hi := by omega
        rw [hmeq]
        refine Or.inr ⟨hi, rfl, hhi, ?_, hhigh⟩
        rw [hmeq] at hnewlow
        exact hnewlow

theorem find_index_spec {α : Type} (B : Bin α) (c : List Nat → Ordering)
    (cmp : BinCmp) {m : List Nat} {n : Nat}
    (hn : SortedSet.len m = some n)
    (hwf : B.const_size * n + LEN_SIZE ≤ m.length)
    (hsorted : Sorted cmp B.const_size n m)
    (hpc : ProbeConsistent c cmp) :
    (∃ i, SortedSet.find_index c B m = some (SortedSet.Find.Index i) ∧
      i < n ∧ c (slot B.const_size m i) = Ordering.eq) ∨
    (∃ l, SortedSet.find_index c B m =
        some (SortedSet.Find.LastRange (l, l)) ∧ l ≤ n ∧
      (∀ j, j < l → c (slot B.const_size m j) = Ordering.gt) ∧
      (∀ j, l ≤ j → j < n → c (slot B.const_size m j) = Ordering.lt)) := by
  by_cases hn0 : n = 0
  · subst hn0
    refine Or.inr ⟨0, ?_, le_rfl, by omega, by omega⟩
    rw [SortedSet.find_index, hn]
    rfl
  · have heq : SortedSet.find_index c B m = SortedSet.find_loop c B m 0 n := by
      rw [SortedSet.find_index, hn]
      show (if n = 0 then pure (SortedSet.Find.LastRange (0, 0))
        else SortedSet.find_loop c B m 0 n) = _
      rw [if_neg hn0]
    rw [heq]
    exact find_loop_spec B c cmp hwf hsorted hpc 0 n (by omega) le_rfl
      (by omega) (by omega)

/- ------------------------------------------------------------------ -/
/- The add operation: update in place or shift-insert.                 -/
/- ------------------------------------------------------------------ -/

theorem probe_of_lawful {cmp : BinCmp} (hl : LawfulCmp cmp)
    (buffer : List Nat) :
    ProbeConsistent (fun order => cmp buffer order) cmp := by
  constructor
  · intro x y hx hxy
    exact hl.lt_trans _ _ _ hx hxy
  · intro x y hx hyx
    have h1 : cmp x buffer = Ordering.lt := by
      rw [hl.swap_eq buffer x, hx]
      rfl
    have h2 : cmp y buffer = Ordering.lt := hl.lt_trans _ _ _ hyx h1
    rw [hl.swap_eq y buffer, h2]
    rfl

theorem len_eq_of_head {w m : List Nat} {n : Nat}
    (hhead : w.take LEN_SIZE = m.take LEN_SIZE) (hwl : LEN_SIZE ≤ w.length)
    (hml : LEN_SIZE ≤ m.length) (hn : SortedSet.len m = some n) :
    SortedSet.len w = some n := by
  rw [len_eq hwl, hhead, ← len_eq hml, hn]

theorem add_spec {α : Type} (B : Bin α) (cmp : BinCmp) {m : List Nat}
    {n : Nat} (item : α)
    (hn : SortedSet.len m = some n)
    (hroom : B.const_size * (n + 1) + LEN_SIZE ≤ m.length)
    (hsize : (B.to_bytes item).length = B.const_size)
    (hsorted : Sorted cmp B.const_size n m)
    (hl : LawfulCmp cmp)
    (hsmall : n + 1 < 2 ^ 32) :
    ∃ w, SortedSet.add B cmp m item = some w ∧ w.length = m.length ∧
    ((∃ j, j < n ∧
        cmp (B.to_bytes item) (slot B.const_size m j) = Ordering.eq ∧
        SortedSet.len w = some n ∧
        slot B.const_size w j = B.to_bytes item ∧
        (∀ i, i ≠ j → slot B.const_size w i = slot B.const_size m i)) ∨
     (∃ l, l ≤ n ∧
        (∀ j, j < l →
          cmp (B.to_bytes item) (slot B.const_size m j) = Ordering.gt) ∧
        (∀ j, l ≤ j → j < n →
          cmp (B.to_bytes item) (slot B.const_size m j) = Ordering.lt) ∧
        SortedSet.len w = some (n + 1) ∧
        slot B.const_size w l = B.to_bytes item ∧
        (∀ j, j < l → slot B.const_size w j = slot B.const_size m j) ∧
        (∀ j, l < j → j ≤ n →
          slot B.const_size w j = slot B.const_size m (j - 1)))) := by
  have hring : B.const_size * (n + 1) = B.const_size * n + B.const_size := by
    ring
  have hml : LEN_SIZE ≤ m.length := by omega
  have hwf : B.const_size * n + LEN_SIZE ≤ m.length := by omega
  rcases find_index_spec B (fun order => cmp (B.to_bytes item) order) cmp hn
      hwf hsorted (probe_of_lawful hl (B.to_bytes item)) with
    ⟨j, hfi, hjn, hjeq⟩ | ⟨l, hfi, hln, hgt, hlt⟩
  · -- exact match: overwrite in place
    have hb : B.const_size * j + LEN_SIZE + B.const_size ≤ m.length := by
      have h1 : B.const_size * (j + 1) ≤ B.const_size * (n + 1) :=
        Nat.mul_le_mul_left _ (by omega)
      have h2 : B.const_size * (j + 1) = B.const_size * j + B.const_size := by
        ring
      omega
    obtain ⟨w, hw, hwlen, hwslot, hwothers, hwhead⟩ :=
      store_at_index_spec B (m := m) (i := j) hsize hb
    have hadd : SortedSet.add B cmp m item =
        SortedSet.store_at_index B m j (B.to_bytes item) := by
      rw [SortedSet.add, hfi]
      rfl
    refine ⟨w, by rw [hadd]; exact hw, hwlen, Or.inl ⟨j, hjn, hjeq, ?_,
      hwslot, hwothers⟩⟩
    exact len_eq_of_head hwhead (by omega) hml hn
  · -- no match: shift right from the insertion boundary and insert
    have hb : B.const_size * n + LEN_SIZE + B.const_size ≤ m.length := by
      omega
    obtain ⟨w1, hw1, hw1len, hw1head, hw1low, hw1mid, hw1high⟩ :=
      shift_right_spec B hn hln hb
    have hbl : B.const_size * l + LEN_SIZE + B.const_size ≤ w1.length := by
      have h1 : B.const_size * (l + 1) ≤ B.const_size * (n + 1) :=
        Nat.mul_le_mul_left _ (by omega)
      have h2 : B.const_size * (l + 1) = B.const_size * l + B.const_size := by
        ring
      omega
    obtain ⟨w2, hw2, hw2len, hw2slot, hw2others, hw2head⟩ :=
      store_at_index_spec B (m := w1) (i := l) hsize hbl
    have hw2l : LEN_SIZE ≤ w2.length := by omega
    have hlen2 : SortedSet.len w2 = some n :=
      len_eq_of_head (by rw [hw2head, hw1head]) hw2l hml hn
    obtain ⟨w3, hw3, hw3len, hw3count, hw3tail, hw3slots⟩ :=
      set_len_spec (m := w2) (n + 1) hw2l
    have hadd : SortedSet.add B cmp m item =
        (SortedSet.shift_right B m l).bind (fun m1 =>
          (SortedSet.store_at_index B m1 l (B.to_bytes item)).bind (fun m2 =>
            (SortedSet.len m2).bind (fun k => SortedSet.set_len m2 (k + 1)))) := by
      rw [SortedSet.add, hfi]
      rfl
    have haddw : SortedSet.add B cmp m item = some w3 := by
      rw [hadd, hw1, Option.some_bind, hw2, Option.some_bind, hlen2,
        Option.some_bind, hw3]
    refine ⟨w3, haddw, by omega, Or.inr ⟨l, hln, hgt, hlt, ?_, ?_, ?_, ?_⟩⟩
    · rw [hw3count, Nat.mod_eq_of_lt hsmall]
    · rw [hw3slots, hw2slot]
    · intro j hj
      rw [hw3slots, hw2others j (by omega), hw1low j (by omega)]
    · intro j hj1 hj2
      rw [hw3slots, hw2others j (by omega), hw1mid j hj1 hj2]

theorem add_sorted {α : Type} (B : Bin α) (cmp : BinCmp) {m : List Nat}
    {n : Nat} (item : α)
    (hn : SortedSet.len m = some n)
    (hroom : B.const_size * (n + 1) + LEN_SIZE ≤ m.length)
    (hsize : (B.to_bytes item).length = B.const_size)
    (hsorted : Sorted cmp B.const_size n m)
    (hl : LawfulCmp cmp)
    (hsmall : n + 1 < 2 ^ 32) :
    ∃ w n', SortedSet.add B cmp m item = some w ∧ w.length = m.length ∧
      SortedSet.len w = some n' ∧ n' ≤ n + 1 ∧
      Sorted cmp B.const_size n' w := by
  obtain ⟨w, hw, hwlen, hcase⟩ :=
    add_spec B cmp item hn hroom hsize hsorted hl hsmall
  rcases hcase with ⟨j, hjn, hjeq, hwct, hwslot, hwothers⟩ |
    ⟨l, hln, hgt, hlt, hwct, hwslot, hwlow, hwmid⟩
  · -- overwrite case: count n, slot j replaced by an equal-comparing record
    refine ⟨w, n, hw, hwlen, hwct, by omega, ?_⟩
    intro a b hab hbn
    have key : ∀ x, cmp (B.to_bytes item) x = cmp (slot B.const_size m j) x := by
      intro x
      rw [hl.swap_eq x (B.to_bytes item), hl.swap_eq x (slot B.const_size m j),
        hl.congr_of_eq _ _ hjeq x]
    by_cases haj : a = j
    · subst haj
      have hbj : b ≠ a := by omega
      rw [hwslot, hwothers b (by omega), key]
      exact hsorted a b hab hbn
    · by_cases hbj : b = j
      · subst hbj
        rw [hwslot, hwothers a haj, hl.congr_of_eq _ _ hjeq]
        exact hsorted a b hab hbn
      · rw [hwothers a haj, hwothers b hbj]
        exact hsorted a b hab hbn
  · -- insert case: count n + 1, records shifted up from l
    refine ⟨w, n + 1, hw, hwlen, hwct, le_rfl, ?_⟩
    intro a b hab hbn
    have hwa : a < n + 1 := by omega
    by_cases hal : a < l
    · by_cases hbl : b < l
      · rw [hwlow a hal, hwlow b hbl]
        exact hsorted a b hab (by omega)
      · by_cases hbe : b = l
        · subst hbe
          rw [hwlow a hal, hwslot, hl.swap_eq, hgt a hal]
          rfl
        · rw [hwlow a hal, hwmid b (by omega) (by omega)]
          exact hsorted a (b - 1) (by omega) (by omega)
    · by_cases hae : a = l
      · subst hae
        rw [hwslot, hwmid b (by omega) (by omega)]
        exact hlt (b - 1) (by omega) (by omega)
      · rw [hwmid a (by omega) (by omega), hwmid b (by omega) (by omega)]
        exact hsorted (a - 1) (b - 1) (by omega) (by omega)

theorem add_all_sorted {α : Type} (B : Bin α) (cmp : BinCmp)
    (hl : LawfulCmp cmp)
    (hsize : ∀ a : α, (B.to_bytes a).length = B.const_size) :
    ∀ (items : List α) (m : List Nat) (n : Nat),
      SortedSet.len m = some n →
      Sorted cmp B.const_size n m →
      B.const_size * (n + items.length) + LEN_SIZE ≤ m.length →
      n + items.length < 2 ^ 32 →
      ∃ w n', SortedSet.add_all B cmp m items = some w ∧
        SortedSet.len w = some n' ∧ n' ≤ n + items.length ∧
        w.length = m.length ∧ Sorted cmp B.const_size n' w := by
  intro items
  induction items with
  | nil =>
    intro m n hn hsorted hroom hsmall
    exact ⟨m, n, rfl, hn, by simp, rfl, hsorted⟩
  | cons x xs ih =>
    intro m n hn hsorted hroom hsmall
    have hxs : (x :: xs).length = xs.length + 1 := by simp
    have hring : B.const_size * (n + (xs.length + 1)) =
        B.const_size * (n + 1) + B.const_size * xs.length := by ring
    obtain ⟨w1, n1, hw1, hw1len, hn1, hn1le, hw1sorted⟩ :=
      add_sorted B cmp x hn (by rw [hxs] at hroom; omega) (hsize x) hsorted hl
        (by omega)
    have hmono : B.const_size * (n1 + xs.length) ≤
        B.const_size * (n + (xs.length + 1)) :=
      Nat.mul_le_mul_left _ (by omega)
    obtain ⟨w, n', hw, hn', hn'le, hwlen, hwsorted⟩ :=
      ih w1 n1 hn1 hw1sorted (by rw [hxs] at hroom; omega) (by omega)
    refine ⟨w, n', ?_, hn', by simp; omega, by omega, hwsorted⟩
    rw [SortedSet.add_all, hw1]
    exact hw

theorem mapM_option_eq {β γ : Type} (f : β → Option γ) (g : β → γ) :
    ∀ l : List β, (∀ b ∈ l, f b = some (g b)) → l.mapM f = some (l.map g) := by
  intro l
  induction l with
  | nil => intro _; rfl
  | cons b l ih =>
    intro h
    rw [List.mapM_cons, h b (by simp), ih (fun x hx => h x (by simp [hx]))]
    rfl

theorem to_vec_eq {α : Type} (B : Bin α) {m : List Nat} {n : Nat}
    (hn : SortedSet.len m = some n)
    (hwf : B.const_size * n + LEN_SIZE ≤ m.length) :
    SortedSet.to_vec B m =
      some ((List.range n).map fun i => B.from_bytes (slot B.const_size m i)) := by
  rw [SortedSet.to_vec, hn]
  show (List.range n).mapM (fun i => (SortedSet.get_by_index B m i).map
    B.from_bytes) = _
  apply mapM_option_eq
  intro i hi
  have hin : i < n := List.mem_range.mp hi
  have hb : B.const_size * i + LEN_SIZE + B.const_size ≤ m.length := by
    have h1 : B.const_size * (i + 1) ≤ B.const_size * n :=
      Nat.mul_le_mul_left _ (by omega)
    have h2 : B.const_size * (i + 1) = B.const_size * i + B.const_size := by
      ring
    omega
  rw [get_by_index_eq B hb]
  rfl

/- ------------------------------------------------------------------ -/
/- Comparator law instances for the concrete record types.             -/
/- ------------------------------------------------------------------ -/

theorem nat_compare_swap (a b : Nat) : compare b a = (compare a b).swap := by
  rcases lt_trichotomy a b with h | h | h
  · rw [Nat.compare_eq_lt.mpr h, Nat.compare_eq_gt.mpr h]
    rfl
  · subst h
    rw [Nat.compare_eq_eq.mpr rfl]
    rfl
  · rw [Nat.compare_eq_lt.mpr h, Nat.compare_eq_gt.mpr h]
    rfl

theorem lawful_pair_cmp : LawfulCmp pair_cmp := by
  constructor
  · intro a b
    exact nat_compare_swap _ _
  · intro a b c h1 h2
    rw [pair_cmp] at *
    rw [Nat.compare_eq_lt] at h1 h2 ⊢
    omega
  · intro a b h x
    simp only [pair_cmp] at h ⊢
    rw [Nat.compare_eq_eq.mp h]

theorem lawful_ticker_cmp : LawfulCmp ticker_cmp := by
  constructor
  · intro a b
    exact nat_compare_swap _ _
  · intro a b c h1 h2
    rw [ticker_cmp] at *
    rw [Nat.compare_eq_lt] at h1 h2 ⊢
    omega
  · intro a b h x
    simp only [ticker_cmp] at h ⊢
    rw [Nat.compare_eq_eq.mp h]

theorem lawful_entry_cmp {κ : Type} (BK : Bin κ) {kcmp : BinCmp}
    (hk : LawfulCmp kcmp) : LawfulCmp (entry_cmp BK kcmp) := by
  constructor
  · intro a b
    exact hk.swap_eq _ _
  · intro a b c h1 h2
    exact hk.lt_trans _ _ _ h1 h2
  · intro a b h x
    exact hk.congr_of_eq _ _ h _

/- ------------------------------------------------------------------ -/
/- Agreement of the fuel twins with the well-founded originals.        -/
/- ------------------------------------------------------------------ -/

theorem find_loop_unfold {α : Type} (c : List Nat → Ordering) (B : Bin α)
    (m : List Nat) (lo hi : Nat) (bytes : List Nat)
    (hg : SortedSet.get_by_index B m ((lo + hi) / 2) = some bytes) :
    SortedSet.find_loop c B m lo hi =
      match c bytes with
      | Ordering.eq => some (SortedSet.Find.Index ((lo + hi) / 2))
      | Ordering.lt =>
          if h : lo < (lo + hi) / 2 then
            SortedSet.find_loop c B m lo ((lo + hi) / 2)
          else some (SortedSet.Find.LastRange (lo, (lo + hi) / 2))
      | Ordering.gt =>
          if h : (lo + hi) / 2 + 1 < hi then
            SortedSet.find_loop c B m ((lo + hi) / 2 + 1) hi
          else some (SortedSet.Find.LastRange ((lo + hi) / 2 + 1, hi)) := by
  rw [SortedSet.find_loop, hg]

theorem find_loop_fuel_unfold0 {α : Type} (c : List Nat → Ordering)
    (B : Bin α) (m : List Nat) (lo hi : Nat) (bytes : List Nat)
    (hg : SortedSet.get_by_index B m ((lo + hi) / 2) = some bytes) :
    find_loop_fuel c B m 0 lo hi =
      match c bytes with
      | Ordering.eq => some (SortedSet.Find.Index ((lo + hi) / 2))
      | Ordering.lt =>
          if lo < (lo + hi) / 2 then none
          else some (SortedSet.Find.LastRange (lo, (lo + hi) / 2))
      | Ordering.gt =>
          if (lo + hi) / 2 + 1 < hi then none
          else some (SortedSet.Find.LastRange ((lo + hi) / 2 + 1, hi)) := by
  simp only [find_loop_fuel, hg]

theorem find_loop_fuel_unfold_succ {α : Type} (c : List Nat → Ordering)
    (B : Bin α) (m : List Nat) (d lo hi : Nat) (bytes : List Nat)
    (hg : SortedSet.get_by_index B m ((lo + hi) / 2) = some bytes) :
    find_loop_fuel c B m (d + 1) lo hi =
      match c bytes with
      | Ordering.eq => some (SortedSet.Find.Index ((lo + hi) / 2))
      | Ordering.lt =>
          if lo < (lo + hi) / 2 then find_loop_fuel c B m d lo ((lo + hi) / 2)
          else some (SortedSet.Find.LastRange (lo, (lo + hi) / 2))
      | Ordering.gt =>
          if (lo + hi) / 2 + 1 < hi then
            find_loop_fuel c B m d ((lo + hi) / 2 + 1) hi
          else some (SortedSet.Find.LastRange ((lo + hi) / 2 + 1, hi)) := by
  simp only [find_loop_fuel, hg]

theorem find_loop_fuel_eq {α : Type} (c : List Nat → Ordering) (B : Bin α)
    (m : List Nat) :
    ∀ (d lo hi : Nat), hi ≤ lo + d + 1 →
      find_loop_fuel c B m d lo hi = SortedSet.find_loop c B m lo hi := by
  intro d
  induction d with
  | zero =>
    intro lo hi hle
    rcases hg : SortedSet.get_by_index B m ((lo + hi) / 2) with _ | bytes
    · rw [show SortedSet.find_loop c B m lo hi = none from by
        rw [SortedSet.find_loop, hg]]
      simp only [find_loop_fuel, hg]
    · rw [find_loop_unfold c B m lo hi bytes hg,
        find_loop_fuel_unfold0 c B m lo hi bytes hg]
      cases hc : c bytes with
      | eq => rfl
      | lt =>
        dsimp only
        rw [if_neg (by omega), dif_neg (by omega)]
      | gt =>
        dsimp only
        rw [if_neg (by omega), dif_neg (by omega)]
  | succ d ih =>
    intro lo hi hle
    rcases hg : SortedSet.get_by_index B m ((lo + hi) / 2) with _ | bytes
    · rw [show SortedSet.find_loop c B m lo hi = none from by
        rw [SortedSet.find_loop, hg]]
      simp only [find_loop_fuel, hg]
    · rw [find_loop_unfold c B m lo hi bytes hg,
        find_loop_fuel_unfold_succ c B m d lo hi bytes hg]
      cases hc : c bytes with
      | eq => rfl
      | lt =>
        dsimp only
        by_cases hb : lo < (lo + hi) / 2
        · rw [if_pos hb, dif_pos hb]
          exact ih lo ((lo + hi) / 2) (by omega)
        · rw [if_neg hb, dif_neg hb]
      | gt =>
        dsimp only
        by_cases hb : (lo + hi) / 2 + 1 < hi
        · rw [if_pos hb, dif_pos hb]
          exact ih ((lo + hi) / 2 + 1) hi (by omega)
        · rw [if_neg hb, dif_neg hb]

theorem find_index_eq {α : Type} (c : List Nat → Ordering) (B : Bin α)
    (m : List Nat) :
    SortedSet.find_index c B m = find_index_fuel c B m := by
  rw [SortedSet.find_index, find_index_fuel]
  rcases hl : SortedSet.len m with _ | n
  · rfl
  · show (if n = 0 then pure (SortedSet.Find.LastRange (0, 0))
      else SortedSet.find_loop c B m 0 n) =
      (if n = 0 then pure (SortedSet.Find.LastRange (0, 0))
      else find_loop_fuel c B m n 0 n)
    by_cases hn0 : n = 0
    · rw [if_pos hn0, if_pos hn0]
    · rw [if_neg hn0, if_neg hn0, find_loop_fuel_eq c B m n 0 n (by omega)]

theorem find_eq {α : Type} (c : List Nat → Ordering) (B : Bin α)
    (m : List Nat) :
    SortedSet.find c B m = find_fuel c B m := by
  rw [SortedSet.find, find_fuel, find_index_eq]

theorem add_eq {α : Type} (B : Bin α) (cmp : BinCmp) (m : List Nat)
    (item : α) :
    SortedSet.add B cmp m item = add_fuel B cmp m item := by
  rw [SortedSet.add, add_fuel, find_index_eq]

theorem add_all_eq {α : Type} (B : Bin α) (cmp : BinCmp) :
    ∀ (items : List α) (m : List Nat),
      SortedSet.add_all B cmp m items = add_all_fuel B cmp m items := by
  intro items
  induction items with
  | nil => intro m; rfl
  | cons x xs ih =>
    intro m
    rw [SortedSet.add_all, add_all_fuel, add_eq]
    rcases add_fuel B cmp m x with _ | m1
    · rfl
    · exact ih m1

theorem map_put_eq {κ ν : Type} (BK : Bin κ) (BV : Bin ν) (kcmp : BinCmp)
    (m : List Nat) (key : κ) (value : ν) :
    ShmMap.put BK BV kcmp m key value =
      add_fuel (entry_bin BK BV) (entry_cmp BK kcmp) m (key, value) := by
  rw [ShmMap.put, add_eq]

theorem map_get_eq {κ ν : Type} (BK : Bin κ) (BV : Bin ν) (kcmp : BinCmp)
    (m : List Nat) (key : κ) :
    ShmMap.get BK BV kcmp m key =
      (find_fuel (key_cmp BK kcmp key) (entry_bin BK BV) m).map
        (fun o => o.map Prod.snd) := by
  rw [ShmMap.get, find_eq]

/- ------------------------------------------------------------------ -/
/- Claim theorems.                                                     -/
/- ------------------------------------------------------------------ -/

/-- Claim C1: for every record type whose byte comparator is a total
order, after any sequence of add calls starting from a cleared set
(count 0), the final region is defined (no panic), and iterating it
(to_vec) yields exactly the decoded slots 0..count-1, whose stored bytes
are in strictly ascending comparator order. -/
theorem C1_sortedness_invariant {α : Type} (B : Bin α) (cmp : BinCmp)
    (items : List α) (m : List Nat)
    (hl : LawfulCmp cmp)
    (hsize : ∀ a : α, (B.to_bytes a).length = B.const_size)
    (hcleared : SortedSet.len m = some 0)
    (hroom : B.const_size * items.length + LEN_SIZE ≤ m.length)
    (hsmall : items.length < 2 ^ 32) :
    ∃ w n', SortedSet.add_all B cmp m items = some w ∧
      SortedSet.len w = some n' ∧
      SortedSet.to_vec B w =
        some ((List.range n').map fun i => B.from_bytes (slot B.const_size w i)) ∧
      Sorted cmp B.const_size n' w := by
  obtain ⟨w, n', hw, hn', hn'le, hwlen, hwsorted⟩ :=
    add_all_sorted B cmp hl hsize items m 0 hcleared (by intro i j hij hj; omega)
      (by simpa using hroom) (by simpa using hsmall)
  refine ⟨w, n', hw, hn', ?_, hwsorted⟩
  apply to_vec_eq B hn'
  have h1 : B.const_size * n' ≤ B.const_size * items.length :=
    Nat.mul_le_mul_left _ (by omega)
  omega

/-- Witness for C1 at a concrete instance: the Pair record type over a
36-byte region, adding keys 2 then 1. -/
theorem C1_witness :
    ∃ w n', SortedSet.add_all pair_bin pair_cmp (List.replicate 36 0)
        [(2, 5), (1, 7)] = some w ∧
      SortedSet.len w = some n' ∧
      SortedSet.to_vec pair_bin w =
        some ((List.range n').map fun i =>
          pair_bin.from_bytes (slot pair_bin.const_size w i)) ∧
      Sorted pair_cmp pair_bin.const_size n' w :=
  C1_sortedness_invariant pair_bin pair_cmp [(2, 5), (1, 7)]
    (List.replicate 36 0) lawful_pair_cmp
    (by
      intro a
      rcases a with ⟨k, v⟩
      simp [pair_bin, length_writeLE])
    (by decide)
    (by decide)
    (by norm_num)

/-- Claim C5: decode is a left inverse of encode for every supported
record type: the Ticker and Price u64 wrappers (for every u64 value), and
the generic key/value composite Entry whose components round-trip with
well-sized encodings. -/
theorem C5_roundtrip :
    (∀ t : Nat, t < 2 ^ 64 →
      ticker_bin.from_bytes (ticker_bin.to_bytes t) = t) ∧
    (∀ p : Nat, p < 2 ^ 64 →
      price_bin.from_bytes (price_bin.to_bytes p) = p) ∧
    (∀ (κ ν : Type) (BK : Bin κ) (BV : Bin ν) (k : κ) (v : ν),
      (BK.to_bytes k).length = BK.const_size →
      BK.from_bytes (BK.to_bytes k) = k →
      (BV.to_bytes v).length = BV.const_size →
      BV.from_bytes (BV.to_bytes v) = v →
      (entry_bin BK BV).from_bytes ((entry_bin BK BV).to_bytes (k, v)) =
        (k, v)) := by
  have hu64 : ∀ t : Nat, t < 2 ^ 64 → readLE ((writeLE 8 t).take 8) = t := by
    intro t ht
    have htake : (writeLE 8 t).take 8 = writeLE 8 t :=
      List.take_of_length_le (by rw [length_writeLE])
    rw [htake, readLE_writeLE]
    have h2 : (256 : Nat) ^ 8 = 2 ^ 64 := by norm_num
    rw [h2]
    exact Nat.mod_eq_of_lt ht
  refine ⟨fun t ht => hu64 t ht, fun p hp => hu64 p hp, ?_⟩
  intro κ ν BK BV k v hk hkr hv hvr
  simp only [entry_bin]
  rw [List.take_left' hk, List.drop_left' hk,
    show BV.const_size = (BV.to_bytes v).length from hv.symm,
    List.take_length, hkr, hvr]

/-- Witness for C5 at concrete values: ticker 99, price 8000, and the
composite ticker/price entry (7, 70). -/
theorem C5_witness :
    ticker_bin.from_bytes (ticker_bin.to_bytes 99) = 99 ∧
    price_bin.from_bytes (price_bin.to_bytes 8000) = 8000 ∧
    (entry_bin ticker_bin price_bin).from_bytes
      ((entry_bin ticker_bin price_bin).to_bytes (7, 70)) = (7, 70) :=
  ⟨C5_roundtrip.1 99 (by norm_num),
   C5_roundtrip.2.1 8000 (by norm_num),
   C5_roundtrip.2.2 Nat Nat ticker_bin price_bin 7 70 (by decide) (by decide)
     (by decide) (by decide)⟩

/-- Claim C6: the composite entry comparator compares exactly the key
type's comparison of the two key-sized lead byte ranges and never
consults the value bytes; two encoded entries with equal key bytes and
different value bytes compare Equal. -/
theorem C6_entry_cmp_key_only {κ : Type} (BK : Bin κ) (kcmp : BinCmp) :
    (∀ (k1 k2 : κ) (v1 v2 : List Nat),
      (BK.to_bytes k1).length = BK.const_size →
      (BK.to_bytes k2).length = BK.const_size →
      entry_cmp BK kcmp (BK.to_bytes k1 ++ v1) (BK.to_bytes k2 ++ v2) =
        kcmp (BK.to_bytes k1) (BK.to_bytes k2)) ∧
    (∀ (kb v1 v2 : List Nat), kb.length = BK.const_size →
      kcmp kb kb = Ordering.eq →
      entry_cmp BK kcmp (kb ++ v1) (kb ++ v2) = Ordering.eq) := by
  constructor
  · intro k1 k2 v1 v2 h1 h2
    simp only [entry_cmp]
    rw [List.take_left' h1, List.take_left' h2]
  · intro kb v1 v2 h he
    simp only [entry_cmp]
    rw [List.take_left' h, List.take_left' h]
    exact he

/-- Witness for C6: ticker-keyed entries with keys 5 and 9, and two
entries with equal key 5 but different values 1 and 2. -/
theorem C6_witness :
    entry_cmp ticker_bin ticker_cmp
        (ticker_bin.to_bytes 5 ++ price_bin.to_bytes 1)
        (ticker_bin.to_bytes 9 ++ price_bin.to_bytes 2) =
      ticker_cmp (ticker_bin.to_bytes 5) (ticker_bin.to_bytes 9) ∧
    entry_cmp ticker_bin ticker_cmp
        (writeLE 8 5 ++ price_bin.to_bytes 1)
        (writeLE 8 5 ++ price_bin.to_bytes 2) = Ordering.eq :=
  ⟨(C6_entry_cmp_key_only ticker_bin ticker_cmp).1 5 9
     (price_bin.to_bytes 1) (price_bin.to_bytes 2) (by decide) (by decide),
   (C6_entry_cmp_key_only ticker_bin ticker_cmp).2 (writeLE 8 5)
     (price_bin.to_bytes 1) (price_bin.to_bytes 2) (by decide) (by decide)⟩

/-- Claim C7: under a well-formed count, get(index) decodes slot bytes
when index is below the count and signals plain absence otherwise, with
no other failure mode (the outer `some` is the no-panic guarantee). -/
theorem C7_get_bounds {α : Type} (B : Bin α) {m : List Nat} {n : Nat}
    (hn : SortedSet.len m = some n)
    (hwf : B.const_size * n + LEN_SIZE ≤ m.length) (index : Nat) :
    (index < n → SortedSet.get B m index =
      some (some (B.from_bytes (slot B.const_size m index)))) ∧
    (n ≤ index → SortedSet.get B m index = some none) := by
  constructor
  · intro h
    have hb : B.const_size * index + LEN_SIZE + B.const_size ≤ m.length := by
      have h1 : B.const_size * (index + 1) ≤ B.const_size * n :=
        Nat.mul_le_mul_left _ (by omega)
      have h2 : B.const_size * (index + 1) =
          B.const_size * index + B.const_size := by ring
      omega
    rw [SortedSet.get, hn]
    show (if index ≥ n then some none
      else (SortedSet.get_by_index B m index).bind fun bs =>
        some (some (B.from_bytes bs))) = _
    rw [if_neg (by omega), get_by_index_eq B hb]
    rfl
  · intro h
    rw [SortedSet.get, hn]
    show (if index ≥ n then some none
      else (SortedSet.get_by_index B m index).bind fun bs =>
        some (some (B.from_bytes bs))) = some none
    rw [if_pos (by omega)]

/-- Witness for C7: a two-record pair region; index 0 is decoded, index 5
is absent. -/
theorem C7_witness :
    SortedSet.get pair_bin
        (writeLE 4 2 ++ (writeLE 8 1 ++ writeLE 8 11) ++
          (writeLE 8 3 ++ writeLE 8 33)) 0 =
      some (some (pair_bin.from_bytes (slot pair_bin.const_size
        (writeLE 4 2 ++ (writeLE 8 1 ++ writeLE 8 11) ++
          (writeLE 8 3 ++ writeLE 8 33)) 0))) ∧
    SortedSet.get pair_bin
        (writeLE 4 2 ++ (writeLE 8 1 ++ writeLE 8 11) ++
          (writeLE 8 3 ++ writeLE 8 33)) 5 = some none :=
  ⟨(@C7_get_bounds (Nat × Nat) pair_bin
      (writeLE 4 2 ++ (writeLE 8 1 ++ writeLE 8 11) ++
        (writeLE 8 3 ++ writeLE 8 33)) 2 (by decide) (by decide) 0).1
      (by decide),
   (@C7_get_bounds (Nat × Nat) pair_bin
      (writeLE 4 2 ++ (writeLE 8 1 ++ writeLE 8 11) ++
        (writeLE 8 3 ++ writeLE 8 33)) 2 (by decide) (by decide) 5).2
      (by decide)⟩

/-- Claim C8: clear writes a zero count into the 4-byte header and leaves
every other byte of the region in place; afterwards the length reads 0 and
get(0) signals absence. -/
theorem C8_clear_frame {α : Type} (B : Bin α) {m : List Nat}
    (h4 : LEN_SIZE ≤ m.length) :
    SortedSet.clear m = some (writeLE LEN_SIZE 0 ++ m.drop LEN_SIZE) ∧
    (writeLE LEN_SIZE 0 ++ m.drop LEN_SIZE).length = m.length ∧
    SortedSet.len (writeLE LEN_SIZE 0 ++ m.drop LEN_SIZE) = some 0 ∧
    SortedSet.get B (writeLE LEN_SIZE 0 ++ m.drop LEN_SIZE) 0 = some none := by
  have hb : (0 : Nat) + (writeLE LEN_SIZE 0).length ≤ m.length := by
    rw [length_writeLE]
    omega
  have hw : SortedSet.clear m =
      some (writeLE LEN_SIZE 0 ++ m.drop LEN_SIZE) := by
    rw [SortedSet.clear, SortedSet.set_len, sliceWrite_some hb]
    simp [length_writeLE]
  have hwlen : (writeLE LEN_SIZE 0 ++ m.drop LEN_SIZE).length = m.length := by
    simp [length_writeLE]
    omega
  have hlen : SortedSet.len (writeLE LEN_SIZE 0 ++ m.drop LEN_SIZE) =
      some 0 := by
    rw [len_eq (by omega), List.take_left' (length_writeLE _ _),
      readLE_writeLE]
    norm_num
  refine ⟨hw, hwlen, hlen, ?_⟩
  rw [SortedSet.get, hlen]
  show (if (0 : Nat) ≥ 0 then some none
    else (SortedSet.get_by_index B (writeLE LEN_SIZE 0 ++ m.drop LEN_SIZE)
      0).bind fun bs => some (some (B.from_bytes bs))) = some none
  rw [if_pos (by omega)]

/-- Witness for C8: clearing an 8-byte region filled with the byte 7. -/
theorem C8_witness :
    SortedSet.clear (List.replicate 8 7) =
      some (writeLE LEN_SIZE 0 ++ (List.replicate 8 7).drop LEN_SIZE) ∧
    (writeLE LEN_SIZE 0 ++ (List.replicate 8 7).drop LEN_SIZE).length =
      (List.replicate 8 7).length ∧
    SortedSet.len (writeLE LEN_SIZE 0 ++ (List.replicate 8 7).drop LEN_SIZE) =
      some 0 ∧
    SortedSet.get pair_bin
      (writeLE LEN_SIZE 0 ++ (List.replicate 8 7).drop LEN_SIZE) 0 =
      some none :=
  C8_clear_frame pair_bin (by decide)

/-- Claim C9: the ordered-insertion scenario of the repository's test:
clearing a region and adding pair records with keys 1, 3, 0, 100, 10, 11,
11, 2 (values as in the test) yields iteration order 0, 1, 2, 3, 10, 11,
100, the second insertion of key 11 (value 44) having overwritten the
first. -/
theorem C9_ordered_insertion_scenario :
    ((SortedSet.clear (List.replicate 132 0)).bind fun m0 =>
      SortedSet.add_all pair_bin pair_cmp m0
        [(1, 2), (3, 1), (0, 10), (100, 100), (10, 0), (11, 0), (11, 44),
         (2, 2)]).bind (SortedSet.to_vec pair_bin) =
      some [(0, 10), (1, 2), (2, 2), (3, 1), (10, 0), (11, 44),
        (100, 100)] := by
  simp only [add_all_eq]
  set_option maxRecDepth 10000 in decide

theorem find_steps_unfold {α : Type} (c : List Nat → Ordering) (B : Bin α)
    (m : List Nat) (lo hi : Nat) (bytes : List Nat)
    (hg : SortedSet.get_by_index B m ((lo + hi) / 2) = some bytes) :
    find_steps c B m lo hi =
      match c bytes with
      | Ordering.eq => 1
      | Ordering.lt =>
          if h : lo < (lo + hi) / 2 then 1 + find_steps c B m lo ((lo + hi) / 2)
          else 1
      | Ordering.gt =>
          if h : (lo + hi) / 2 + 1 < hi then
            1 + find_steps c B m ((lo + hi) / 2 + 1) hi
          else 1 := by
  rw [find_steps, hg]

/-- Claim C10: for an arbitrary comparator function (no order laws
assumed), the binary-search loop performs at most log2(hi - lo) + 1
probes, and find_index always produces a result (never diverges) on a
well-formed region. -/
theorem C10_search_terminates {α : Type} (B : Bin α)
    (c : List Nat → Ordering) (m : List Nat) :
    (∀ lo hi, lo < hi →
      find_steps c B m lo hi ≤ Nat.log2 (hi - lo) + 1) ∧
    (∀ n, SortedSet.len m = some n →
      B.const_size * n + LEN_SIZE ≤ m.length →
      ∃ r, SortedSet.find_index c B m = some r) := by
  constructor
  · suffices H : ∀ d lo hi, hi - lo ≤ d → lo < hi →
        find_steps c B m lo hi ≤ Nat.log2 (hi - lo) + 1 by
      exact fun lo hi h => H (hi - lo) lo hi le_rfl h
    intro d
    induction d with
    | zero =>
      intro lo hi hd hlt
      omega
    | succ d ih =>
      intro lo hi hd hlt
      rcases hg : SortedSet.get_by_index B m ((lo + hi) / 2) with _ | bytes
      · rw [show find_steps c B m lo hi = 1 from by rw [find_steps, hg]]
        omega
      · rw [find_steps_unfold c B m lo hi bytes hg]
        cases hc : c bytes with
        | eq => dsimp only; omega
        | lt =>
          dsimp only
          by_cases hb : lo < (lo + hi) / 2
          · rw [dif_pos hb]
            have h1 : find_steps c B m lo ((lo + hi) / 2) ≤
                Nat.log2 ((lo + hi) / 2 - lo) + 1 :=
              ih lo ((lo + hi) / 2) (by omega) hb
            have h3 : 2 ≤ hi - lo := by omega
            have h4 : Nat.log2 (hi - lo) = Nat.log2 ((hi - lo) / 2) + 1 := by
              rw [Nat.log2]
              simp [h3]
            have h5 : Nat.log2 ((lo + hi) / 2 - lo) ≤
                Nat.log2 ((hi - lo) / 2) := by
              simp only [Nat.log2_eq_log_two]
              exact Nat.log_mono_right (by omega)
            omega
          · rw [dif_neg hb]
            omega
        | gt =>
          dsimp only
          by_cases hb : (lo + hi) / 2 + 1 < hi
          · rw [dif_pos hb]
            have h1 : find_steps c B m ((lo + hi) / 2 + 1) hi ≤
                Nat.log2 (hi - ((lo + hi) / 2 + 1)) + 1 :=
              ih ((lo + hi) / 2 + 1) hi (by omega) hb
            have h3 : 2 ≤ hi - lo := by omega
            have h4 : Nat.log2 (hi - lo) = Nat.log2 ((hi - lo) / 2) + 1 := by
              rw [Nat.log2]
              simp [h3]
            have h5 : Nat.log2 (hi - ((lo + hi) / 2 + 1)) ≤
                Nat.log2 ((hi - lo) / 2) := by
              simp only [Nat.log2_eq_log_two]
              exact Nat.log_mono_right (by omega)
            omega
          · rw [dif_neg hb]
            omega
  · intro n hn hwf
    have hloop : ∀ d lo hi, hi - lo ≤ d → lo < hi → hi ≤ n →
        ∃ r, SortedSet.find_loop c B m lo hi = some r := by
      intro d
      induction d with
      | zero =>
        intro lo hi hd hlt
        omega
      | succ d ih =>
        intro lo hi hd hlt hhi
        have hb : B.const_size * ((lo + hi) / 2) + LEN_SIZE + B.const_size ≤
            m.length := by
          have h1 : B.const_size * ((lo + hi) / 2 + 1) ≤ B.const_size * n :=
            Nat.mul_le_mul_left _ (by omega)
          have h2 : B.const_size * ((lo + hi) / 2 + 1) =
              B.const_size * ((lo + hi) / 2) + B.const_size := by ring
          omega
        have hg : SortedSet.get_by_index B m ((lo + hi) / 2) =
            some (slot B.const_size m ((lo + hi) / 2)) := get_by_index_eq B hb
        rw [find_loop_unfold c B m lo hi _ hg]
        cases hc : c (slot B.const_size m ((lo + hi) / 2)) with
        | eq => exact ⟨_, rfl⟩
        | lt =>
          dsimp only
          by_cases hb2 : lo < (lo + hi) / 2
          · rw [dif_pos hb2]
            exact ih lo ((lo + hi) / 2) (by omega) hb2 (by omega)
          · rw [dif_neg hb2]
            exact ⟨_, rfl⟩
        | gt =>
          dsimp only
          by_cases hb2 : (lo + hi) / 2 + 1 < hi
          · rw [dif_pos hb2]
            exact ih ((lo + hi) / 2 + 1) hi (by omega) hb2 hhi
          · rw [dif_neg hb2]
            exact ⟨_, rfl⟩
    by_cases hn0 : n = 0
    · subst hn0
      refine ⟨SortedSet.Find.LastRange (0, 0), ?_⟩
      rw [SortedSet.find_index, hn]
      rfl
    · obtain ⟨r, hr⟩ := hloop n 0 n (by omega) (by omega) le_rfl
      refine ⟨r, ?_⟩
      rw [SortedSet.find_index, hn]
      show (if n = 0 then pure (SortedSet.Find.LastRange (0, 0))
        else SortedSet.find_loop c B m 0 n) = some r
      rw [if_neg hn0]
      exact hr

/-- Witness for C10 at a concrete adversarial comparator (constantly
Greater, not an order) over a two-record region. -/
theorem C10_witness :
    (find_steps (fun _ => Ordering.gt) pair_bin
        (writeLE 4 2 ++ (writeLE 8 1 ++ writeLE 8 11) ++
          (writeLE 8 3 ++ writeLE 8 33)) 0 2 ≤ Nat.log2 (2 - 0) + 1) ∧
    (∃ r, SortedSet.find_index (fun _ => Ordering.gt) pair_bin
        (writeLE 4 2 ++ (writeLE 8 1 ++ writeLE 8 11) ++
          (writeLE 8 3 ++ writeLE 8 33)) = some r) :=
  ⟨(C10_search_terminates pair_bin (fun _ => Ordering.gt)
      (writeLE 4 2 ++ (writeLE 8 1 ++ writeLE 8 11) ++
        (writeLE 8 3 ++ writeLE 8 33))).1 0 2 (by omega),
   (C10_search_terminates pair_bin (fun _ => Ordering.gt)
      (writeLE 4 2 ++ (writeLE 8 1 ++ writeLE 8 11) ++
        (writeLE 8 3 ++ writeLE 8 33))).2 2 (by decide) (by decide)⟩

/-- Claim C2: on a sorted region with a probe consistent with the order,
find produces a record exactly when some stored slot compares equal to
the probe, decoding the bytes at that slot; otherwise the search ends in
a LastRange (l, l) where l is the unique insertion point, and when the
probe is a record's own comparator, add inserts that record at exactly
index l. -/
theorem C2_search_correctness {α : Type} (B : Bin α) (cmp : BinCmp)
    (c : List Nat → Ordering) {m : List Nat} {n : Nat} (item : α)
    (hn : SortedSet.len m = some n)
    (hroom : B.const_size * (n + 1) + LEN_SIZE ≤ m.length)
    (hsorted : Sorted cmp B.const_size n m)
    (hpc : ProbeConsistent c cmp)
    (hl : LawfulCmp cmp)
    (hsize : (B.to_bytes item).length = B.const_size)
    (hsmall : n + 1 < 2 ^ 32) :
    ((∃ i, i < n ∧ c (slot B.const_size m i) = Ordering.eq) →
      ∃ i, i < n ∧ c (slot B.const_size m i) = Ordering.eq ∧
        SortedSet.find c B m =
          some (some (B.from_bytes (slot B.const_size m i)))) ∧
    ((∀ i, i < n → c (slot B.const_size m i) ≠ Ordering.eq) →
      SortedSet.find c B m = some none ∧
      ∃ l, SortedSet.find_index c B m =
          some (SortedSet.Find.LastRange (l, l)) ∧
        InsertionPoint c B.const_size n l m ∧
        (∀ l', InsertionPoint c B.const_size n l' m → l' = l) ∧
        ((∀ x, c x = cmp (B.to_bytes item) x) →
          ∃ w, SortedSet.add B cmp m item = some w ∧
            slot B.const_size w l = B.to_bytes item ∧
            (∀ j, j < l → slot B.const_size w j = slot B.const_size m j) ∧
            (∀ j, l < j → j ≤ n →
              slot B.const_size w j = slot B.const_size m (j - 1)) ∧
            SortedSet.len w = some (n + 1))) := by
  have hring : B.const_size * (n + 1) = B.const_size * n + B.const_size := by
    ring
  have hwf : B.const_size * n + LEN_SIZE ≤ m.length := by omega
  rcases find_index_spec B c cmp hn hwf hsorted hpc with
    ⟨i, hfi, hin, hieq⟩ | ⟨l, hfi, hln, hgt, hlt⟩
  · constructor
    · intro _
      refine ⟨i, hin, hieq, ?_⟩
      have hbi : B.const_size * i + LEN_SIZE + B.const_size ≤ m.length := by
        have h1 : B.const_size * (i + 1) ≤ B.const_size * n :=
          Nat.mul_le_mul_left _ (by omega)
        have h2 : B.const_size * (i + 1) =
            B.const_size * i + B.const_size := by ring
        omega
      rw [SortedSet.find, hfi]
      show ((SortedSet.get_by_index B m i).bind fun bs =>
        some (some (B.from_bytes bs))) = _
      rw [get_by_index_eq B hbi]
      rfl
    · intro hno
      exact absurd hieq (hno i hin)
  · constructor
    · intro ⟨i, hin, hieq⟩
      rcases Nat.lt_or_ge i l with hil | hil
      · rw [hgt i hil] at hieq
        cases hieq
      · rw [hlt i hil hin] at hieq
        cases hieq
    · intro hno
      have hfind : SortedSet.find c B m = some none := by
        rw [SortedSet.find, hfi]
        rfl
      refine ⟨hfind, l, hfi, ⟨hln, hgt, hlt⟩, ?_, ?_⟩
      · intro l' ⟨hl'n, hgt', hlt'⟩
        rcases lt_trichotomy l' l with h | h | h
        · have h1 := hgt l' h
          have h2 := hlt' l' le_rfl (by omega)
          rw [h1] at h2
          cases h2
        · exact h
        · have h1 := hgt' l h
          have h2 := hlt l le_rfl (by omega)
          rw [h1] at h2
          cases h2
      · intro hcapp
        rcases add_spec B cmp item hn hroom hsize hsorted hl hsmall with
          ⟨w, hw, hwlen, hcase⟩
        rcases hcase with ⟨j, hjn, hjeq, _, _, _⟩ |
          ⟨l'', hl''n, hgt'', hlt'', hwct, hwslot, hwlow, hwmid⟩
        · exact absurd ((hcapp (slot B.const_size m j)).trans hjeq)
            (hno j hjn)
        · have hip'' : InsertionPoint c B.const_size n l'' m := by
            refine ⟨hl''n, ?_, ?_⟩
            · intro j hj
              rw [hcapp]
              exact hgt'' j hj
            · intro j h1 h2
              rw [hcapp]
              exact hlt'' j h1 h2
          have heql : l'' = l := by
            rcases lt_trichotomy l'' l with h | h | h
            · have h1 := hgt l'' h
              have h2 := hip''.2.2 l'' le_rfl (by omega)
              rw [h1] at h2
              cases h2
            · exact h
            · have h1 := hip''.2.1 l h
              have h2 := hlt l le_rfl (by omega)
              rw [h1] at h2
              cases h2
          subst heql
          exact ⟨w, hw, hwslot, hwlow, hwmid, hwct⟩

/-- Witness for C2: probing a two-record sorted pair region (keys 1 and 3,
room for a third) with the comparator of the record (3, 7); key 3 is
present, so find returns the stored record. -/
theorem C2_witness :
    ∃ i, i < 2 ∧ (fun order => pair_cmp (pair_bin.to_bytes (3, 7)) order)
          (slot pair_bin.const_size
            (writeLE 4 2 ++ (writeLE 8 1 ++ writeLE 8 11) ++
              (writeLE 8 3 ++ writeLE 8 33) ++ List.replicate 16 0) i) =
          Ordering.eq ∧
        SortedSet.find
            (fun order => pair_cmp (pair_bin.to_bytes (3, 7)) order) pair_bin
            (writeLE 4 2 ++ (writeLE 8 1 ++ writeLE 8 11) ++
              (writeLE 8 3 ++ writeLE 8 33) ++ List.replicate 16 0) =
          some (some (pair_bin.from_bytes (slot pair_bin.const_size
            (writeLE 4 2 ++ (writeLE 8 1 ++ writeLE 8 11) ++
              (writeLE 8 3 ++ writeLE 8 33) ++ List.replicate 16 0) i))) :=
  (@C2_search_correctness (Nat × Nat) pair_bin pair_cmp
    (fun order => pair_cmp (pair_bin.to_bytes (3, 7)) order)
    (writeLE 4 2 ++ (writeLE 8 1 ++ writeLE 8 11) ++
      (writeLE 8 3 ++ writeLE 8 33) ++ List.replicate 16 0) 2 (3, 7)
    (by decide) (by decide)
    (by
      intro i j hij hj
      have hij2 : i = 0 ∧ j = 1 := by omega
      obtain ⟨rfl, rfl⟩ := hij2
      decide)
    (probe_of_lawful lawful_pair_cmp (pair_bin.to_bytes (3, 7)))
    lawful_pair_cmp (by decide) (by norm_num)).1 ⟨1, by omega, by decide⟩

/-- Claim C3: adding a record that compares equal to the stored record at
slot j overwrites exactly that slot's bytes with the new encoding, leaving
the count and every other slot unchanged - for every set state whose count
fits the region, full-capacity regions included (the update path performs
no shift and needs no free slot); and for the keyed map, put(K,1) then
put(K,2) keeps one entry whose value reads 2, with the set size unchanged
by the second put. -/
theorem C3_update_overwrites_in_place {α : Type} (B : Bin α) (cmp : BinCmp)
    {m : List Nat} {n : Nat} (item : α) (j0 : Nat)
    (hn : SortedSet.len m = some n)
    (hwf : B.const_size * n + LEN_SIZE ≤ m.length)
    (hsize : (B.to_bytes item).length = B.const_size)
    (hsorted : Sorted cmp B.const_size n m)
    (hl : LawfulCmp cmp)
    (hj0 : j0 < n)
    (heq : cmp (B.to_bytes item) (slot B.const_size m j0) = Ordering.eq) :
    (∃ w, SortedSet.add B cmp m item = some w ∧ w.length = m.length ∧
      SortedSet.len w = some n ∧
      slot B.const_size w j0 = B.to_bytes item ∧
      (∀ i, i ≠ j0 → slot B.const_size w i = slot B.const_size m i)) ∧
    ((((ShmMap.put ticker_bin price_bin ticker_cmp (List.replicate 36 0)
          7 1).bind fun m1 =>
        ShmMap.put ticker_bin price_bin ticker_cmp m1 7 2).bind fun m2 =>
        ShmMap.get ticker_bin price_bin ticker_cmp m2 7) = some (some 2) ∧
      ((ShmMap.put ticker_bin price_bin ticker_cmp (List.replicate 36 0)
          7 1).bind fun m1 => SortedSet.len m1) = some 1 ∧
      (((ShmMap.put ticker_bin price_bin ticker_cmp (List.replicate 36 0)
          7 1).bind fun m1 =>
        ShmMap.put ticker_bin price_bin ticker_cmp m1 7 2).bind fun m2 =>
        SortedSet.len m2) = some 1) := by
  constructor
  · rcases find_index_spec B (fun order => cmp (B.to_bytes item) order) cmp
        hn hwf hsorted (probe_of_lawful hl (B.to_bytes item)) with
      ⟨j, hfi, hjn, hjeq⟩ | ⟨l, hfi, hln, hgt'', hlt''⟩
    · have hjj0 : j = j0 := by
        by_contra hne
        have h1 : cmp (slot B.const_size m j0) (B.to_bytes item) =
            Ordering.eq := by
          rw [hl.swap_eq (B.to_bytes item) (slot B.const_size m j0), heq]
          rfl
        have h2 : cmp (slot B.const_size m j0) (slot B.const_size m j) =
            Ordering.eq := by
          rw [← hl.congr_of_eq _ _ hjeq (slot B.const_size m j0)]
          exact h1
        rcases Nat.lt_or_ge j0 j with hlt | hge
        · rw [hsorted j0 j hlt hjn] at h2
          cases h2
        · have hjlt : j < j0 := by omega
          have h3 := hsorted j j0 hjlt hj0
          rw [hl.swap_eq (slot B.const_size m j) (slot B.const_size m j0),
            h3] at h2
          cases h2
      subst hjj0
      have hb : B.const_size * j + LEN_SIZE + B.const_size ≤ m.length := by
        have h1 : B.const_size * (j + 1) ≤ B.const_size * n :=
          Nat.mul_le_mul_left _ (by omega)
        have h2 : B.const_size * (j + 1) =
            B.const_size * j + B.const_size := by ring
        omega
      obtain ⟨w, hw, hwlen, hwslot, hwothers, hwhead⟩ :=
        store_at_index_spec B (m := m) (i := j) hsize hb
      have hadd : SortedSet.add B cmp m item =
          SortedSet.store_at_index B m j (B.to_bytes item) := by
        rw [SortedSet.add, hfi]
        rfl
      refine ⟨w, by rw [hadd]; exact hw, hwlen, ?_, hwslot, hwothers⟩
      exact len_eq_of_head hwhead (by omega) (by omega) hn
    · rcases Nat.lt_or_ge j0 l with hlt | hge
      · rw [hgt'' j0 hlt] at heq
        cases heq
      · rw [hlt'' j0 hge hj0] at heq
        cases heq
  · refine ⟨?_, ?_, ?_⟩ <;>
    · simp only [map_put_eq, map_get_eq]
      decide

/-- Witness for C3: a ticker/price map region at full capacity (20 bytes,
one entry, key 7 value 1, count = capacity), updated in place with the
entry (7, 2). -/
theorem C3_witness :
    ∃ w, SortedSet.add (entry_bin ticker_bin price_bin)
        (entry_cmp ticker_bin ticker_cmp)
        (writeLE 4 1 ++ (writeLE 8 7 ++ writeLE 8 1))
        (7, 2) = some w ∧
      w.length = (writeLE 4 1 ++ (writeLE 8 7 ++ writeLE 8 1)).length ∧
      SortedSet.len w = some 1 ∧
      slot (entry_bin ticker_bin price_bin).const_size w 0 =
        (entry_bin ticker_bin price_bin).to_bytes (7, 2) ∧
      (∀ i, i ≠ 0 → slot (entry_bin ticker_bin price_bin).const_size w i =
        slot (entry_bin ticker_bin price_bin).const_size
          (writeLE 4 1 ++ (writeLE 8 7 ++ writeLE 8 1)) i) :=
  (@C3_update_overwrites_in_place (Nat × Nat)
    (entry_bin ticker_bin price_bin) (entry_cmp ticker_bin ticker_cmp)
    (writeLE 4 1 ++ (writeLE 8 7 ++ writeLE 8 1)) 1 (7, 2) 0
    (by decide) (by decide) (by decide)
    (by intro i j hij hj; omega)
    (lawful_entry_cmp ticker_bin lawful_ticker_cmp)
    (by omega) (by decide)).1

/-- Claim C4 (amended): when the count already equals the capacity implied
by the region size, add with a record equal to no stored one reaches the
shift/store write with no prior capacity check, but the write's slice
range extends past the region's end, so the bounds-checked slice access
fails (a Rust panic, modelled as none): nothing is written and no error
value is returned. -/
theorem C4_full_insert_out_of_bounds {α : Type} (B : Bin α) (cmp : BinCmp)
    {m : List Nat} {n : Nat} (item : α)
    (hn : SortedSet.len m = some n)
    (hs : 0 < B.const_size)
    (hwf : B.const_size * n + LEN_SIZE ≤ m.length)
    (hcap : n = capacity B.const_size m)
    (hsorted : Sorted cmp B.const_size n m)
    (hl : LawfulCmp cmp)
    (hsize : (B.to_bytes item).length = B.const_size)
    (hnoeq : ∀ j, j < n →
      cmp (B.to_bytes item) (slot B.const_size m j) ≠ Ordering.eq) :
    SortedSet.add B cmp m item = none := by
  have hring : B.const_size * (n + 1) = B.const_size * n + B.const_size := by
    ring
  have hfull : m.length < B.const_size * (n + 1) + LEN_SIZE := by
    have h1 : B.const_size * ((m.length - LEN_SIZE) / B.const_size) +
        (m.length - LEN_SIZE) % B.const_size = m.length - LEN_SIZE :=
      Nat.div_add_mod _ _
    have h2 : (m.length - LEN_SIZE) % B.const_size < B.const_size :=
      Nat.mod_lt _ hs
    rw [hcap, capacity] at hring ⊢
    omega
  rcases find_index_spec B (fun order => cmp (B.to_bytes item) order) cmp hn
      hwf hsorted (probe_of_lawful hl (B.to_bytes item)) with
    ⟨i, _, hin, hieq⟩ | ⟨l, hfi, hln, _, _⟩
  · exact absurd hieq (hnoeq i hin)
  · rcases Nat.lt_or_ge l n with hlt | hge
    · -- the top iteration of the shift writes past the end
      have hn1 : 1 ≤ n := by omega
      have hsucc : B.const_size * (n - 1) + B.const_size =
          B.const_size * n := by
        rw [← Nat.mul_succ]
        congr 1
        omega
      have hrd : SortedSet.offset B (n - 1) + B.const_size ≤ m.length := by
        rw [SortedSet.offset]
        omega
      have hsrclen : ((m.drop (SortedSet.offset B (n - 1))).take
          B.const_size).length = B.const_size := by
        simp only [List.length_take, List.length_drop]
        rw [SortedSet.offset]
        omega
      have hstep : SortedSet.shift_step B m (n - 1) = none := by
        rw [SortedSet.shift_step, sliceRead_some hrd]
        show sliceWrite m (SortedSet.offset B (n - 1) + B.const_size)
          ((m.drop (SortedSet.offset B (n - 1))).take B.const_size) = none
        rw [sliceWrite, if_neg]
        rw [hsrclen, SortedSet.offset]
        omega
      have hshift : SortedSet.shift_right B m l = none := by
        rw [SortedSet.shift_right, hn]
        show SortedSet.shift_loop B l m (n - l) = none
        have hk : n - l = (n - l - 1) + 1 := by omega
        rw [hk, SortedSet.shift_loop,
          show l + (n - l - 1) = n - 1 by omega, hstep]
        rfl
      rw [SortedSet.add, hfi]
      show (SortedSet.shift_right B m l).bind _ = none
      rw [hshift]
      rfl
    · -- inserting at the very end: the store itself writes past the end
      have hleq : l = n := by omega
      subst hleq
      have hshift : SortedSet.shift_right B m l = some m := by
        rw [SortedSet.shift_right, hn]
        show SortedSet.shift_loop B l m (l - l) = some m
        rw [Nat.sub_self]
        rfl
      have hstore : SortedSet.store_at_index B m l (B.to_bytes item) =
          none := by
        rw [SortedSet.store_at_index, if_pos hsize, sliceWrite, if_neg]
        rw [hsize, SortedSet.offset]
        omega
      rw [SortedSet.add, hfi]
      show (SortedSet.shift_right B m l).bind _ = none
      rw [hshift]
      show (SortedSet.store_at_index B m l (B.to_bytes item)).bind _ = none
      rw [hstore]
      rfl

/-- Witness for C4 (amended) at a concrete full region: one pair record in
a 20-byte region (capacity 1), adding key 5. -/
theorem C4_witness :
    SortedSet.add pair_bin pair_cmp
      (writeLE 4 1 ++ (writeLE 8 1 ++ writeLE 8 11)) (5, 5) = none :=
  @C4_full_insert_out_of_bounds (Nat × Nat) pair_bin pair_cmp
    (writeLE 4 1 ++ (writeLE 8 1 ++ writeLE 8 11)) 1 (5, 5)
    (by decide) (by decide) (by decide) (by decide)
    (by intro i j hij hj; omega)
    lawful_pair_cmp (by decide)
    (by
      intro j hj
      have hj0 : j = 0 := by omega
      subst hj0
      decide)

/-- Counterexample to C4 as stated: at the concrete full region (count 1 =
capacity of the 20-byte region) the insert does not complete a write
beyond the region's end - the out-of-bounds slice access aborts the
operation (none), so no memory state results at all. -/
theorem C4_counterexample :
    SortedSet.len (writeLE 4 1 ++ (writeLE 8 1 ++ writeLE 8 11)) =
      some (capacity pair_bin.const_size
        (writeLE 4 1 ++ (writeLE 8 1 ++ writeLE 8 11))) ∧
    ¬ ∃ w, SortedSet.add pair_bin pair_cmp
      (writeLE 4 1 ++ (writeLE 8 1 ++ writeLE 8 11)) (5, 5) = some w := by
  constructor
  · decide
  · intro ⟨w, hw⟩
    rw [add_eq] at hw
    have hnone : add_fuel pair_bin pair_cmp
        (writeLE 4 1 ++ (writeLE 8 1 ++ writeLE 8 11)) (5, 5) = none := by
      decide
    rw [hnone] at hw
    cases hw

end Oraclash
